import Mathlib

/-!
Verification development for the usdc-mobile-agent-wallet scripts.

The Python sources under scripts/ are shallowly embedded below:
pure fragments become Lean functions on Nat / Int / List / String,
machine integers are Nat with explicit reduction modulo 2 ^ w where the
source relies on fixed-width arithmetic, and fallible code returns
Except.  RPC-facing code (monitor, history) is embedded as pure
functions over an explicit oracle describing the RPC responses.
-/

/-! ## 64-bit word helpers (Keccak lanes)

`Web3.keccak` (used by contacts-manager.py, phonebook.py, e2e-test.py for
checksum addresses and CREATE2) is Keccak-256.  Lanes are 64-bit words,
modelled as Nat kept below `2 ^ 64`. -/

def w64 : Nat := 18446744073709551616

def mask64 : Nat := 18446744073709551615

def rol64 (x n : Nat) : Nat :=
  let k := n % 64
  ((x <<< k) ||| (x >>> (64 - k))) % w64

def not64 (x : Nat) : Nat := mask64 ^^^ x

/-! ## Keccak-f[1600] and Keccak-256

State: 25 lanes, index `x + 5 * y`. -/

/-- Round constants (decimal spellings of the 24 FIPS-202 iota words). -/
def keccakRC : List Nat :=
  [1, 32898,
   9223372036854808714, 9223372039002292224,
   32907, 2147483649,
   9223372039002292353, 9223372036854808585,
   138, 136,
   2147516425, 2147483658,
   2147516555, 9223372036854775947,
   9223372036854808713, 9223372036854808579,
   9223372036854808578, 9223372036854775936,
   32778, 9223372039002259466,
   9223372039002292353, 9223372036854808704,
   2147483649, 9223372039002292232]

/-- Rotation offsets, one row per `y`; the flat index is `x + 5 * y`. -/
def rhoRows : List (List Nat) :=
  [[0, 1, 62, 28, 27],
   [36, 44, 6, 55, 20],
   [3, 10, 43, 25, 39],
   [41, 45, 15, 21, 8],
   [18, 2, 61, 56, 14]]

def rhoOffsets : List Nat := rhoRows.join

def lane (st : List Nat) (x y : Nat) : Nat := st.getD (x + 5 * y) 0

def thetaStep (st : List Nat) : List Nat :=
  let cs := (List.range 5).map (fun x =>
    lane st x 0 ^^^ lane st x 1 ^^^ lane st x 2 ^^^ lane st x 3 ^^^ lane st x 4)
  let ds := (List.range 5).map (fun x =>
    (cs.getD ((x + 4) % 5) 0) ^^^ rol64 (cs.getD ((x + 1) % 5) 0) 1)
  (List.range 25).map (fun i => st.getD i 0 ^^^ ds.getD (i % 5) 0)

/-- Combined rho rotation and pi lane permutation: the lane landing at
position `(X, Y)` comes from `(x, y) = ((X + 3 * Y) % 5, X)`. -/
def rhoPiStep (st : List Nat) : List Nat :=
  (List.range 25).map (fun j =>
    let xt := j % 5
    let yt := j / 5
    let xs := (xt + 3 * yt) % 5
    rol64 (lane st xs xt) (rhoOffsets.getD (xs + 5 * xt) 0))

def chiStep (st : List Nat) : List Nat :=
  (List.range 25).map (fun j =>
    let x := j % 5
    let y := j / 5
    lane st x y ^^^ (not64 (lane st ((x + 1) % 5) y) &&& lane st ((x + 2) % 5) y))

def iotaStep (rc : Nat) (st : List Nat) : List Nat :=
  match st with
  | [] => []
  | a :: rest => (a ^^^ rc) :: rest

def keccakF (st : List Nat) : List Nat :=
  keccakRC.foldl (fun s rc => iotaStep rc (chiStep (rhoPiStep (thetaStep s)))) st

def zeroState : List Nat := List.replicate 25 0

/-- Multi-rate (keccak, pre-SHA3) padding: `0x01 .. 0x80`, collapsing to a
single `0x81` byte when one byte of padding is needed. -/
def keccakPad (msg : List Nat) : List Nat :=
  let padlen := 136 - msg.length % 136
  if padlen == 1 then msg ++ [0x81]
  else msg ++ 0x01 :: List.replicate (padlen - 2) 0 ++ [0x80]

/-- Little-endian load of lane `i` from a 136-byte block. -/
def loadLane (block : List Nat) (i : Nat) : Nat :=
  (List.range 8).foldr (fun k acc => block.getD (8 * i + k) 0 + 256 * acc) 0

def absorbBlock (st : List Nat) (block : List Nat) : List Nat :=
  (List.range 25).map (fun i =>
    if i < 17 then st.getD i 0 ^^^ loadLane block i else st.getD i 0)

def absorbBlocks : Nat → List Nat → List Nat → List Nat
  | 0, st, _ => st
  | n + 1, st, bs => absorbBlocks n (keccakF (absorbBlock st (bs.take 136))) (bs.drop 136)

def squeeze256 (st : List Nat) : List Nat :=
  (List.range 32).map (fun k => (st.getD (k / 8) 0 >>> (8 * (k % 8))) % 256)

/-- Keccak-256 of a byte list (each entry `< 256`), as used by
`Web3.keccak`. -/
def keccak256 (msg : List Nat) : List Nat :=
  let p := keccakPad msg
  squeeze256 (absorbBlocks (p.length / 136) zeroState p)

/-! ## Hex digits, EIP-55 checksum addresses (`Web3.to_checksum_address`),
address validation (`Web3.is_address`)

Characters are handled through their ASCII codes.  `strip2` models
optional removal of a leading `0x`. -/

def isHexDigitCh (c : Char) : Bool :=
  (48 ≤ c.toNat && c.toNat ≤ 57) || (97 ≤ c.toNat && c.toNat ≤ 102) ||
    (65 ≤ c.toNat && c.toNat ≤ 70)

def isUpperHexLetter (c : Char) : Bool := 65 ≤ c.toNat && c.toNat ≤ 70

def isLowerHexLetter (c : Char) : Bool := 97 ≤ c.toNat && c.toNat ≤ 102

def hexVal (c : Char) : Nat :=
  if 48 ≤ c.toNat && c.toNat ≤ 57 then c.toNat - 48
  else if 97 ≤ c.toNat && c.toNat ≤ 102 then c.toNat - 87
  else if 65 ≤ c.toNat && c.toNat ≤ 70 then c.toNat - 55
  else 0

/-- ASCII code of the lowercase hex digit for a value `< 16`. -/
def lowerAscii (d : Nat) : Nat := if d < 10 then 48 + d else 87 + d

/-- Output character of the EIP-55 mapping: hex value `d`, hash nibble `n`;
letters are uppercased when the nibble is `≥ 8`. -/
def outChar (d n : Nat) : Char :=
  Char.ofNat (if 10 ≤ d && 8 ≤ n then 55 + d else lowerAscii d)

def nibblesOfBytes (bs : List Nat) : List Nat :=
  bs.foldr (fun b acc => b / 16 :: b % 16 :: acc) []

def strip2 (l : List Char) : List Char :=
  match l with
  | '0' :: 'x' :: rest => rest
  | _ => l

def zipOut : List Nat → List Nat → List Char
  | v :: vs, n :: ns => outChar v n :: zipOut vs ns
  | _, _ => []

/-- Core of `Web3.to_checksum_address`: lowercase the 40 hex digits,
keccak the ASCII bytes of that lowercase string, and re-case each hex
letter by the corresponding hash nibble. -/
def checksumChars (t : List Char) : List Char :=
  let vs := t.map hexVal
  zipOut vs (nibblesOfBytes (keccak256 (vs.map lowerAscii)))

def to_checksum_address (s : String) : String :=
  String.mk ('0' :: 'x' :: checksumChars (strip2 s.toList))

def isMixedCase (t : List Char) : Bool :=
  t.any isUpperHexLetter && t.any isLowerHexLetter

/-- `Web3.is_address`: 40 hex digits (optional `0x`); a mixed-case
spelling must additionally round-trip through the checksum encoding. -/
def is_address (s : String) : Bool :=
  let t := strip2 s.toList
  t.length == 40 && t.all isHexDigitCh &&
    (!isMixedCase t || to_checksum_address s == s)

/-! ## Contact stores: scripts/phonebook.py and scripts/contacts-manager.py

Python dict semantics: assignment to an existing key keeps its position
and overwrites the value, a new key is appended. -/

def setKey {α : Type} (k : String) (v : α) : List (String × α) → List (String × α)
  | [] => [(k, v)]
  | (k2, v2) :: rest => if k2 == k then (k2, v) :: rest else (k2, v2) :: setKey k v rest

structure PBEntry where
  address : String
  chain : String
  addedAt : String
  addedVia : String
deriving DecidableEq

/-- `PhoneBook.add` (phonebook.py lines 37-49): validates, checksums, then
stores.  The pair is (store after the call, outcome); on error the store
is unchanged because the exception is raised before the assignment.
`now` stands for the `datetime.utcnow()` timestamp. -/
def PhoneBook.add (book : List (String × PBEntry))
    (name address chain addedVia now : String) :
    List (String × PBEntry) × Except String String :=
  if is_address address then
    let cs := to_checksum_address address
    (setKey name ⟨cs, chain, now, addedVia⟩ book, Except.ok cs)
  else
    (book, Except.error ("Invalid address: " ++ address))

/-- `PhoneBook.get` (phonebook.py lines 51-57). -/
def PhoneBook.get (book : List (String × PBEntry)) (name : String) :
    Except String String :=
  match book.lookup name with
  | some e => Except.ok e.address
  | none =>
    if is_address name then Except.ok (to_checksum_address name)
    else Except.error ("Contact not found: " ++ name)

/-- `ContactsManager.add` (contacts-manager.py lines 32-43); the store maps
names directly to checksummed address strings. -/
def ContactsManager.add (book : List (String × String)) (name address : String) :
    List (String × String) × Except String Bool :=
  if is_address address then
    (setKey name (to_checksum_address address) book, Except.ok true)
  else
    (book, Except.error ("Invalid Ethereum address: " ++ address))

/-- `ContactsManager.get` (contacts-manager.py lines 45-58). -/
def ContactsManager.get (book : List (String × String)) (name : String) :
    Except String String :=
  match book.lookup name with
  | some a => Except.ok a
  | none =>
    if is_address name then Except.ok (to_checksum_address name)
    else Except.error ("Contact not found: " ++ name)

/-! ## Recipient resolution -/

inductive ResolveSource where
  | contacts
  | rawAddress
  | nameService
  | fuzzy
deriving DecidableEq

def lowerCh (c : Char) : Char :=
  if 65 ≤ c.toNat && c.toNat ≤ 90 then Char.ofNat (c.toNat + 32) else c

def isSubstr (nd : List Char) : List Char → Bool
  | [] => nd.isEmpty
  | c :: cs => nd.isPrefixOf (c :: cs) || isSubstr nd cs

/-- Modelled from the spec: `resolve_name` is invoked by
`resolve_recipient` (usdc-transfer.py line 92) on the imported
contacts module, but no `resolve_name` definition exists anywhere in the
source tree; only this caller does.  The rule chain follows section 4.2 of
the spec: exact contact-book name, then raw address, then name-service
suffix (the commented-out `.eth` hook in contacts-manager.py, with the
external lookup modelled as the collaborator `ensLookup`), then a unique
case-insensitive substring match among contact names. -/
def resolve_name (book : List (String × String)) (ensLookup : String → Option String)
    (token : String) : Except String (String × ResolveSource) :=
  match book.lookup token with
  | some a => Except.ok (a, ResolveSource.contacts)
  | none =>
    if is_address token then
      Except.ok (to_checksum_address token, ResolveSource.rawAddress)
    else if token.endsWith ".eth" then
      match ensLookup token with
      | some a => Except.ok (a, ResolveSource.nameService)
      | none => Except.error ("Cannot resolve ENS name: " ++ token)
    else
      match book.filter
          (fun p => isSubstr (token.toList.map lowerCh) (p.1.toList.map lowerCh)) with
      | [(_, a)] => Except.ok (a, ResolveSource.fuzzy)
      | _ => Except.error ("Cannot resolve recipient: " ++ token)

/-! ## History reconstruction: scripts/usdc-history.py

Addresses and 32-byte topics are modelled as numbers; the source
compares lowercased hex strings, which is equality of the underlying
values, and extracting the low 40 hex characters of a topic is reduction
modulo `2 ^ 160`.  `blockTs` stands for `w3.eth.get_block(n)['timestamp']`.
The `value / 10 ** 6` display scaling of the source is kept as the raw
integer `rawValue`; no claim depends on the scaled float. -/

def addrWrap : Nat := 1461501637330902918203684832716283019655932542976

inductive TxDirection where
  | inbound
  | outbound
deriving DecidableEq

structure HistLog where
  txHash : Nat
  blockNumber : Nat
  topicFrom : Nat
  topicTo : Nat
  data : Nat
deriving DecidableEq

structure HistTx where
  hash : Nat
  block : Nat
  timestamp : Nat
  fromAddr : Nat
  toAddr : Nat
  rawValue : Nat
  direction : TxDirection
  counterparty : Nat
deriving DecidableEq

/-- Decoding of one log (usdc-history.py lines 76-101). -/
def decodeHistLog (address : Nat) (blockTs : Nat → Nat) (lg : HistLog) : HistTx :=
  let fromAddr := lg.topicFrom % addrWrap
  let toAddr := lg.topicTo % addrWrap
  let dir := if toAddr == address then TxDirection.inbound else TxDirection.outbound
  { hash := lg.txHash, block := lg.blockNumber, timestamp := blockTs lg.blockNumber,
    fromAddr := fromAddr, toAddr := toAddr, rawValue := lg.data,
    direction := dir,
    counterparty := if toAddr == address then fromAddr else toAddr }

/-- Stable insertion for descending block order (`list.sort(key=block,
reverse=True)` is a stable descending sort). -/
def insertDescByBlock (e : HistTx) : List HistTx → List HistTx
  | [] => [e]
  | x :: xs => if x.block ≤ e.block then e :: x :: xs else x :: insertDescByBlock e xs

def sortDescByBlock (l : List HistTx) : List HistTx := l.foldr insertDescByBlock []

/-- Core of `get_history_via_rpc` (usdc-history.py lines 72-110): the from-
and to-filtered log sets are concatenated, the concatenation is sliced to
`limit` BEFORE decoding and sorting (`all_logs[:limit]`, line 75), decoded,
sorted by block number descending, and sliced to `limit` again
(`transactions[:limit]`, line 110). -/
def historyTransactions (address : Nat) (blockTs : Nat → Nat)
    (logsFrom logsTo : List HistLog) (limit : Nat) : List HistTx :=
  let allLogs := logsFrom ++ logsTo
  let txs := (allLogs.take limit).map (decodeHistLog address blockTs)
  (sortDescByBlock txs).take limit

/-! ## Incoming-payment monitor: scripts/usdc-monitor.py

One loop iteration (`while True` body, lines 51-121) is `monTick`; the
RPC surface touched by a tick is an explicit oracle.  A raised RPC error
anywhere in the tick is caught by the `except Exception` handler, so a
tick always returns: the Bool records whether the tick completed without
an exception.  Note the source adds a transaction hash to `seen_txs`
before fetching the block timestamp, so a mid-batch failure keeps the
hashes added so far (the set is mutated in place). -/

inductive RpcResp (α : Type) where
  | ok (a : α)
  | fail
deriving DecidableEq

structure MonLog where
  txHash : Nat
  blockNumber : Nat
  topicFrom : Nat
  data : Nat
deriving DecidableEq

structure MonNotif where
  block : Nat
  txHash : Nat
  fromAddr : Nat
  rawValue : Nat
  timestamp : Nat
deriving DecidableEq

structure MonState where
  lastBlock : Nat
  seen : List Nat
deriving DecidableEq

structure TickRpc where
  blockNumber : RpcResp Nat
  getLogs : RpcResp (List MonLog)
  getBlockTs : Nat → RpcResp Nat

/-- The `for log in logs` body (usdc-monitor.py lines 67-110): skip seen
hashes, record the hash, decode, fetch the block timestamp (the failure
point), emit one notification.  Returns (seen set, notifications emitted,
completed without exception). -/
def processLogs (gb : Nat → RpcResp Nat) :
    List Nat → List MonLog → List Nat × List MonNotif × Bool
  | seen, [] => (seen, [], true)
  | seen, lg :: rest =>
    if lg.txHash ∈ seen then processLogs gb seen rest
    else
      match gb lg.blockNumber with
      | RpcResp.fail => (lg.txHash :: seen, [], false)
      | RpcResp.ok ts =>
        let r := processLogs gb (lg.txHash :: seen) rest
        (r.1, ⟨lg.blockNumber, lg.txHash, lg.topicFrom % addrWrap, lg.data, ts⟩ :: r.2.1,
          r.2.2)

/-- One tick of the monitor loop.  `last_block = current_block` runs only
after the whole batch has been processed; any failure leaves it
unchanged, and the tick never escalates the failure. -/
def monTick (s : MonState) (t : TickRpc) : MonState × List MonNotif × Bool :=
  match t.blockNumber with
  | RpcResp.fail => (s, [], false)
  | RpcResp.ok current =>
    if s.lastBlock < current then
      match t.getLogs with
      | RpcResp.fail => (s, [], false)
      | RpcResp.ok logs =>
        let r := processLogs t.getBlockTs s.seen logs
        if r.2.2 then ({ lastBlock := current, seen := r.1 }, r.2.1, true)
        else ({ lastBlock := s.lastBlock, seen := r.1 }, r.2.1, false)
    else (s, [], true)

/-- The loop: every tick is processed (per-tick failures are caught, the
loop sleeps and goes on); the Nat counts ticks actually run. -/
def runMonitor (s : MonState) : List TickRpc → MonState × List MonNotif × Nat
  | [] => (s, [], 0)
  | t :: ts =>
    let r := monTick s t
    let rest := runMonitor r.1 ts
    (rest.1, r.2.1 ++ rest.2.1, rest.2.2 + 1)

def countNotifsWithHash (h : Nat) (ns : List MonNotif) : Nat :=
  (ns.filter (fun n => n.txHash == h)).length

/-! ## Gas limit: `int(gas_estimate * 1.2)` (usdc-transfer.py line 162)

The literal `1.2` is the IEEE-754 double `5404319552844595 / 2 ^ 52`;
the multiplication rounds the exact product to 53 significant bits
(round to nearest, ties to even) and `int` truncates toward zero.  For
`g < 2 ^ 53` the conversion of `g` to double is exact, so
`gasLimitPy` is an exact model of the source expression. -/

def bitLenAux : Nat → Nat → Nat
  | 0, _ => 0
  | fuel + 1, n => if n = 0 then 0 else bitLenAux fuel (n / 2) + 1

def bitLen (n : Nat) : Nat := bitLenAux n n

/-- Round a positive integer to 53 significant bits, nearest, ties to
even (the shift is `bitLen p - 53`, the half step `2 ^ (bitLen p - 54)`). -/
def roundSig53 (p : Nat) : Nat :=
  if bitLen p ≤ 53 then p
  else if 2 ^ (bitLen p - 54) < p % 2 ^ (bitLen p - 53) ||
      (p % 2 ^ (bitLen p - 53) == 2 ^ (bitLen p - 54) &&
        (p / 2 ^ (bitLen p - 53)) % 2 == 1) then
    (p / 2 ^ (bitLen p - 53) + 1) * 2 ^ (bitLen p - 53)
  else
    p / 2 ^ (bitLen p - 53) * 2 ^ (bitLen p - 53)

def float12Mantissa : Nat := 5404319552844595

def gasLimitPy (g : Nat) : Nat := roundSig53 (g * float12Mantissa) / 2 ^ 52

/-- The gas limit as the spec words it: estimate times 1.2 rounded UP. -/
def gasLimitSpecCeil (g : Nat) : Nat := (6 * g + 4) / 5

/-! ## Amount conversion (usdc-transfer.py lines 129-130)

`int(Decimal(str(amount)) * Decimal(10 ** decimals))`: `str(amount)` is a
decimal literal `mantissa / 10 ^ scale`, `Decimal` arithmetic is exact,
and `int` truncates toward zero. -/

def amountToMinor (mantissa : Int) (scale decimals : Nat) : Int :=
  Int.tdiv (mantissa * 10 ^ decimals) (10 ^ scale)

/-! ## CREATE2 derivation: `compute_create2` (e2e-test.py lines 204-207)

`factory` and the agent address arrive as hex strings and are used as
their byte values (`bytes.fromhex(factory[2:])`, `int(agent_addr,
16).to_bytes(32, 'big')`); both are modelled as numbers. -/

def natToBytesBE (len n : Nat) : List Nat :=
  (List.range len).map (fun i => (n >>> (8 * (len - 1 - i))) % 256)

/-- `Web3.solidity_keccak([str], [s])` for a pure-ASCII string. -/
def solidityKeccakText (s : String) : List Nat :=
  keccak256 (s.toList.map Char.toNat)

def byteHexChars (bs : List Nat) : List Char :=
  bs.foldr (fun b acc => Char.ofNat (lowerAscii (b / 16)) :: Char.ofNat (lowerAscii (b % 16)) :: acc) []

def compute_create2 (factory agentAddr : Nat) (bytecodeHash : List Nat) : String :=
  let salt := natToBytesBE 32 agentAddr
  let raw := 0xff :: natToBytesBE 20 factory ++ salt ++ bytecodeHash
  to_checksum_address (String.mk (byteHexChars ((keccak256 raw).drop 12)))

/-- The derivation as the spec words it: the 20 low-order bytes of the
hash of `0xFF || factory(20) || salt(32) || initCodeHash(32)`. -/
def deriveAddressSpecBytes (factory salt : Nat) (initCodeHash : List Nat) : List Nat :=
  (keccak256 (0xff :: natToBytesBE 20 factory ++ natToBytesBE 32 salt ++ initCodeHash)).drop 12

/-- A string that is a valid address already in canonical checksummed
form. -/
def isChecksummedAddr (s : String) : Bool :=
  is_address s && (to_checksum_address s == s)

/-! # Theorems -/

set_option maxRecDepth 4000

/-- C1 -- For every token that exactly matches a stored contact name,
resolution returns the stored address with source `contacts`, even when
the token is simultaneously a valid raw address string (exact-contact
rule precedes the raw-address rule); `ContactsManager.get` follows the
same order. -/
theorem resolve_contacts_beats_raw_address (book : List (String × String))
    (ensLookup : String → Option String) (token a : String)
    (hlook : book.lookup token = some a) (_haddr : is_address token = true) :
    resolve_name book ensLookup token = Except.ok (a, ResolveSource.contacts) ∧
    ContactsManager.get book token = Except.ok a := by
  constructor
  · unfold resolve_name
    rw [hlook]
  · unfold ContactsManager.get
    rw [hlook]

theorem resolve_contacts_beats_raw_address_witness :
    resolve_name [("0x2000000000000000000000000000000000000002",
        "0x1000000000000000000000000000000000000001")] (fun _ => none)
        "0x2000000000000000000000000000000000000002" =
      Except.ok ("0x1000000000000000000000000000000000000001", ResolveSource.contacts) ∧
    ContactsManager.get [("0x2000000000000000000000000000000000000002",
        "0x1000000000000000000000000000000000000001")]
        "0x2000000000000000000000000000000000000002" =
      Except.ok "0x1000000000000000000000000000000000000001" :=
  resolve_contacts_beats_raw_address _ _ _ _ (by decide) (by decide)

/-- C2 -- the claim fails on the code: `get_history_via_rpc` slices the
concatenated log list to `limit` BEFORE decoding and sorting
(`all_logs[:limit]`, usdc-history.py line 75).  With a block-1 log in the
from-set, a block-5 log in the to-set and `limit = 1`, the single
returned entry is the block-1 event, although block 5 is the highest
block scanned.  (The `transactions[:limit]` slice after the sort, line
110, is then a no-op.) -/
theorem history_truncates_before_sorting :
    (historyTransactions 5 (fun _ => 0)
        [⟨10, 1, 5, 6, 7⟩] [⟨11, 5, 6, 5, 8⟩] 1).map HistTx.block = [1] := by
  decide

/-- C3 counterexample -- for a self-transfer log present in both filtered
sets, no `direction = out` event is produced at all: both copies compare
`to == address` and so both decode as `direction = in`. -/
theorem history_self_transfer_never_outbound :
    ¬ ∃ e ∈ historyTransactions 5 (fun _ => 0)
        [⟨9, 3, 5, 5, 100⟩] [⟨9, 3, 5, 5, 100⟩] 10,
        e.direction = TxDirection.outbound := by
  decide

/-- C3 amended -- a self-transfer log appearing in both the from-filtered
and the to-filtered sets is kept twice (concatenated, not deduplicated),
producing two events with the same transaction hash, both with
`direction = in`, whenever the limit admits both copies. -/
theorem history_self_transfer_duplicated_inbound (address limit : Nat)
    (blockTs : Nat → Nat) (lg : HistLog)
    (hto : lg.topicTo % addrWrap = address) (hlim : 2 ≤ limit) :
    historyTransactions address blockTs [lg] [lg] limit =
      [decodeHistLog address blockTs lg, decodeHistLog address blockTs lg] ∧
    (decodeHistLog address blockTs lg).hash = lg.txHash ∧
    (decodeHistLog address blockTs lg).direction = TxDirection.inbound := by
  have htake2 : ∀ (l : List HistTx), l.length = 2 → l.take limit = l := by
    intro l hl
    exact List.take_of_length_le (by omega)
  have hdir : (decodeHistLog address blockTs lg).direction = TxDirection.inbound := by
    unfold decodeHistLog
    simp only [hto, beq_self_eq_true, if_pos]
  refine ⟨?_, rfl, hdir⟩
  have hlen : ([lg] ++ [lg] : List HistLog).length ≤ limit := by
    simp only [List.length_append, List.length_singleton]
    omega
  have h1 : ([lg] ++ [lg] : List HistLog).take limit = [lg, lg] :=
    List.take_of_length_le hlen
  show (sortDescByBlock ((([lg] ++ [lg]).take limit).map (decodeHistLog address blockTs))).take limit = _
  rw [h1]
  simp only [List.map_cons, List.map_nil]
  have hs : sortDescByBlock
      [decodeHistLog address blockTs lg, decodeHistLog address blockTs lg] =
      [decodeHistLog address blockTs lg, decodeHistLog address blockTs lg] := by
    simp [sortDescByBlock, insertDescByBlock]
  rw [hs]
  exact htake2 _ rfl


/-- C5 -- a monitor tick that hits an RPC failure anywhere (head block
query, log query, or a per-log block lookup mid-batch) leaves
`last_block` unchanged, so the next tick re-queries the same range
`[last_block + 1, current]`; `last_block` moves only when the whole
batch completed; and the loop always runs every tick regardless of
failures (the per-tick handler catches them). -/
theorem monitor_advances_only_after_full_batch (s : MonState) (t : TickRpc)
    (ts : List TickRpc) :
    ((monTick s t).2.2 = false → (monTick s t).1.lastBlock = s.lastBlock) ∧
    ((monTick s t).1.lastBlock ≠ s.lastBlock → (monTick s t).2.2 = true) ∧
    (runMonitor s ts).2.2 = ts.length := by
  obtain ⟨bn, gl, gb⟩ := t
  refine ⟨?_, ?_, ?_⟩
  · intro hfail
    cases bn with
    | fail => rfl
    | ok current =>
      by_cases hlt : s.lastBlock < current
      · cases gl with
        | fail => simp [monTick, hlt]
        | ok logs =>
          by_cases hok : (processLogs gb s.seen logs).2.2 = true
          · simp [monTick, hlt, hok] at hfail
          · simp [monTick, hlt, hok]
      · simp [monTick, hlt]
  · intro hmoved
    cases bn with
    | fail => exact absurd rfl hmoved
    | ok current =>
      by_cases hlt : s.lastBlock < current
      · cases gl with
        | fail => exact absurd (by simp [monTick, hlt]) hmoved
        | ok logs =>
          by_cases hok : (processLogs gb s.seen logs).2.2 = true
          · simp [monTick, hlt, hok]
          · exact absurd (by simp [monTick, hlt, hok]) hmoved
      · exact absurd (by simp [monTick, hlt]) hmoved
  · induction ts generalizing s with
    | nil => rfl
    | cons t2 ts2 ih =>
      show (runMonitor (monTick s t2).1 ts2).2.2 + 1 = ts2.length + 1
      rw [ih]

theorem monitor_advances_only_after_full_batch_witness :
    (monTick ⟨10, []⟩ ⟨RpcResp.ok 12, RpcResp.ok [⟨77, 11, 3, 9⟩],
        fun _ => RpcResp.fail⟩).1.lastBlock = 10 ∧
    (runMonitor ⟨10, []⟩ [⟨RpcResp.ok 12, RpcResp.ok [⟨77, 11, 3, 9⟩],
        fun _ => RpcResp.fail⟩]).2.2 = 1 :=
  ⟨(monitor_advances_only_after_full_batch ⟨10, []⟩
      ⟨RpcResp.ok 12, RpcResp.ok [⟨77, 11, 3, 9⟩], fun _ => RpcResp.fail⟩ []).1 (by decide),
   (monitor_advances_only_after_full_batch ⟨10, []⟩
      ⟨RpcResp.ok 12, RpcResp.ok [⟨77, 11, 3, 9⟩], fun _ => RpcResp.fail⟩
      [⟨RpcResp.ok 12, RpcResp.ok [⟨77, 11, 3, 9⟩], fun _ => RpcResp.fail⟩]).2.2⟩

/-- C6 -- delivering the same log on two consecutive ticks (the second
tick re-scans a range containing it) emits exactly one notification for
its transaction hash: the hash is added to `seen_txs` on first sight and
the `if tx_hash in seen_txs: continue` guard skips it afterwards. -/
theorem monitor_emits_once_for_repeated_log (s : MonState) (lg : MonLog)
    (c1 c2 ts1 ts2 : Nat) (h1 : s.lastBlock < c1) (h2 : c1 < c2)
    (hseen : lg.txHash ∉ s.seen) :
    countNotifsWithHash lg.txHash
      (runMonitor s
        [⟨RpcResp.ok c1, RpcResp.ok [lg], fun _ => RpcResp.ok ts1⟩,
         ⟨RpcResp.ok c2, RpcResp.ok [lg], fun _ => RpcResp.ok ts2⟩]).2.1 = 1 := by
  have hp1 : processLogs (fun _ => RpcResp.ok ts1) s.seen [lg] =
      (lg.txHash :: s.seen, [⟨lg.blockNumber, lg.txHash, lg.topicFrom % addrWrap, lg.data, ts1⟩], true) := by
    unfold processLogs
    rw [if_neg hseen]
    rfl
  have hp2 : processLogs (fun _ => RpcResp.ok ts2) (lg.txHash :: s.seen) [lg] =
      (lg.txHash :: s.seen, [], true) := by
    unfold processLogs
    rw [if_pos (List.mem_cons_self _ _)]
    rfl
  have ht1 : monTick s ⟨RpcResp.ok c1, RpcResp.ok [lg], fun _ => RpcResp.ok ts1⟩ =
      (⟨c1, lg.txHash :: s.seen⟩,
       [⟨lg.blockNumber, lg.txHash, lg.topicFrom % addrWrap, lg.data, ts1⟩], true) := by
    simp [monTick, h1, hp1]
  have ht2 : monTick ⟨c1, lg.txHash :: s.seen⟩
      ⟨RpcResp.ok c2, RpcResp.ok [lg], fun _ => RpcResp.ok ts2⟩ =
      (⟨c2, lg.txHash :: s.seen⟩, [], true) := by
    simp [monTick, h2, hp2]
  simp [runMonitor, ht1, ht2, countNotifsWithHash]

theorem monitor_emits_once_for_repeated_log_witness :
    countNotifsWithHash 501
      (runMonitor ⟨20, [404]⟩
        [⟨RpcResp.ok 21, RpcResp.ok [⟨501, 21, 3, 9⟩], fun _ => RpcResp.ok 1000⟩,
         ⟨RpcResp.ok 22, RpcResp.ok [⟨501, 21, 3, 9⟩], fun _ => RpcResp.ok 1001⟩]).2.1 = 1 :=
  monitor_emits_once_for_repeated_log ⟨20, [404]⟩ ⟨501, 21, 3, 9⟩ 21 22 1000 1001
    (by decide) (by decide) (by decide)

/-- C7 -- the claim fails on the code: `seen_txs` is a plain set that is
only ever added to; nothing is evicted.  After three ticks that each
delivered one new transfer, the hash seen at block 101 is still in the
set although the scan window has long moved past block 101, and the set
has grown by one entry per distinct transfer observed. -/
theorem monitor_seen_set_never_evicted :
    (runMonitor ⟨100, []⟩
      [⟨RpcResp.ok 101, RpcResp.ok [⟨1001, 101, 3, 9⟩], fun _ => RpcResp.ok 0⟩,
       ⟨RpcResp.ok 102, RpcResp.ok [⟨1002, 102, 3, 9⟩], fun _ => RpcResp.ok 0⟩,
       ⟨RpcResp.ok 103, RpcResp.ok [⟨1003, 103, 3, 9⟩], fun _ => RpcResp.ok 0⟩]).1.seen
      = [1003, 1002, 1001] := by
  decide

/-- C8 -- `int(Decimal(str(amount)) * Decimal(10 ** decimals))` is exact
decimal arithmetic: whenever the decimal scale of the amount literal is
at most the token decimals, the result is exactly
`mantissa * 10 ^ (decimals - scale)` with no rounding; in particular
`20.0` (mantissa 200, scale 1) with 6 decimals gives exactly 20000000. -/
theorem amount_conversion_exact :
    (∀ (m : Int) (s d : Nat), s ≤ d → amountToMinor m s d = m * 10 ^ (d - s)) ∧
    amountToMinor 200 1 6 = 20000000 := by
  constructor
  · intro m s d hsd
    unfold amountToMinor
    have hpow : (10 : Int) ^ d = 10 ^ s * 10 ^ (d - s) := by
      rw [← pow_add]
      congr 1
      omega
    rw [hpow, show m * ((10 : Int) ^ s * 10 ^ (d - s)) = 10 ^ s * (m * 10 ^ (d - s)) by ring]
    exact Int.mul_tdiv_cancel_left _ (by positivity)
  · decide

theorem amount_conversion_exact_witness :
    amountToMinor 300 2 6 = 300 * 10 ^ 4 ∧ amountToMinor 200 1 6 = 20000000 :=
  ⟨amount_conversion_exact.1 300 2 6 (by decide), amount_conversion_exact.2⟩

/-! ### Facts about `bitLen` and `roundSig53`, toward the gas-limit claim -/

theorem bitLenAux_spec (fuel : Nat) : ∀ n : Nat, n ≤ fuel →
    (n = 0 → bitLenAux fuel n = 0) ∧
    (1 ≤ n → 2 ^ (bitLenAux fuel n - 1) ≤ n ∧ n < 2 ^ bitLenAux fuel n) := by
  induction fuel with
  | zero =>
    intro n hn
    refine ⟨fun h => by subst h; rfl, fun h1 => absurd hn (by omega)⟩
  | succ fuel ih =>
    intro n hn
    constructor
    · intro h
      subst h
      simp [bitLenAux]
    · intro h1
      have h0 : ¬ n = 0 := by omega
      have heq : bitLenAux (fuel + 1) n = bitLenAux fuel (n / 2) + 1 := by
        simp only [bitLenAux, if_neg h0]
      have hle : n / 2 ≤ fuel := by omega
      rw [heq]
      by_cases h12 : n / 2 = 0
      · have hn1 : n = 1 := by omega
        have hz : bitLenAux fuel (n / 2) = 0 := (ih (n / 2) hle).1 h12
        rw [hz, hn1]
        decide
      · have hlo_hi := (ih (n / 2) hle).2 (by omega)
        obtain ⟨hlo, hhi⟩ := hlo_hi
        set b := bitLenAux fuel (n / 2) with hbdef
        have hb1 : 1 ≤ b := by
          by_contra hb0
          have : b = 0 := by omega
          rw [this] at hhi
          omega
        have h2b : 2 ^ b = 2 * 2 ^ (b - 1) := by
          have hb' : b - 1 + 1 = b := by omega
          calc (2 : Nat) ^ b = 2 ^ (b - 1 + 1) := by rw [hb']
          _ = 2 ^ (b - 1) * 2 := pow_succ 2 (b - 1)
          _ = 2 * 2 ^ (b - 1) := by ring
        have h2b1 : 2 ^ (b + 1 - 1) = 2 ^ b := by norm_num
        rw [h2b1]
        constructor
        · omega
        · have : 2 ^ (b + 1) = 2 * 2 ^ b := by
            rw [pow_succ]
            ring
          omega

theorem bitLen_spec (n : Nat) (h1 : 1 ≤ n) :
    2 ^ (bitLen n - 1) ≤ n ∧ n < 2 ^ bitLen n :=
  (bitLenAux_spec n n le_rfl).2 h1

theorem roundSig53_err (p s : Nat) (hb : bitLen p = s + 53) (hs : 1 ≤ s) :
    p ≤ roundSig53 p + 2 ^ (s - 1) ∧ roundSig53 p ≤ p + 2 ^ (s - 1) := by
  unfold roundSig53
  rw [hb, if_neg (by omega), show s + 53 - 53 = s by omega,
    show s + 53 - 54 = s - 1 by omega]
  have hE0 : 0 < 2 ^ s := Nat.pos_pow_of_pos s (by omega)
  have hqr : p % 2 ^ s + 2 ^ s * (p / 2 ^ s) = p := Nat.mod_add_div _ _
  have hr : p % 2 ^ s < 2 ^ s := Nat.mod_lt _ hE0
  have h2 : 2 ^ s = 2 * 2 ^ (s - 1) := by
    have hs' : s - 1 + 1 = s := by omega
    calc (2 : Nat) ^ s = 2 ^ (s - 1 + 1) := by rw [hs']
    _ = 2 ^ (s - 1) * 2 := pow_succ 2 (s - 1)
    _ = 2 * 2 ^ (s - 1) := by ring
  have hq2s : (p / 2 ^ s + 1) * 2 ^ s = 2 ^ s * (p / 2 ^ s) + 2 ^ s := by ring
  have hq2s' : p / 2 ^ s * 2 ^ s = 2 ^ s * (p / 2 ^ s) := by ring
  by_cases hc : (2 ^ (s - 1) < p % 2 ^ s ||
      (p % 2 ^ s == 2 ^ (s - 1) && (p / 2 ^ s) % 2 == 1)) = true
  · rw [if_pos hc]
    have hge : 2 ^ (s - 1) ≤ p % 2 ^ s := by
      rcases Bool.or_eq_true_iff.mp hc with h | h
      · have := of_decide_eq_true h
        omega
      · have hbeq := (Bool.and_eq_true_iff.mp h).1
        have := eq_of_beq hbeq
        omega
    omega
  · rw [if_neg hc]
    have hle : p % 2 ^ s ≤ 2 ^ (s - 1) := by
      have hor := Bool.or_eq_false_iff.mp (Bool.not_eq_true _ |>.mp hc)
      have : ¬ 2 ^ (s - 1) < p % 2 ^ s := of_decide_eq_false hor.1
      omega
    omega

theorem roundSig53_exact (p M d s : Nat) (hb : bitLen p = s + 53) (hs : 1 ≤ s)
    (hM : M = p + d) (hd0 : 0 < d) (hdlt : d < 2 ^ (s - 1)) (hdvd : 2 ^ s ∣ M) :
    roundSig53 p = M := by
  obtain ⟨m, hm⟩ := hdvd
  have hE0 : 0 < 2 ^ s := Nat.pos_pow_of_pos s (by omega)
  have h2 : 2 ^ s = 2 * 2 ^ (s - 1) := by
    have hs' : s - 1 + 1 = s := by omega
    calc (2 : Nat) ^ s = 2 ^ (s - 1 + 1) := by rw [hs']
    _ = 2 ^ (s - 1) * 2 := pow_succ 2 (s - 1)
    _ = 2 * 2 ^ (s - 1) := by ring
  have hp1 : 1 ≤ p := by
    by_contra hp0
    have hpz : p = 0 := by omega
    rw [hpz] at hb
    have : bitLen 0 = 0 := rfl
    omega
  have hm1 : 1 ≤ m := by
    by_contra hm0
    have : m = 0 := by omega
    rw [this, Nat.mul_zero] at hm
    omega
  have hEm : 2 ^ s * (m - 1) + 2 ^ s = 2 ^ s * m := by
    have hm' : m = (m - 1) + 1 := by omega
    calc 2 ^ s * (m - 1) + 2 ^ s = 2 ^ s * ((m - 1) + 1) := by ring
    _ = 2 ^ s * m := by rw [← hm']
  have hEp : 2 ^ s ≤ p + d := by
    calc 2 ^ s ≤ 2 ^ s * m := Nat.le_mul_of_pos_right _ (by omega)
    _ = p + d := by omega
  have hq : p / 2 ^ s = m - 1 ∧ p % 2 ^ s = 2 ^ s - d :=
    (Nat.div_mod_unique hE0).mpr (by omega)
  unfold roundSig53
  rw [hb, if_neg (by omega), show s + 53 - 53 = s by omega,
    show s + 53 - 54 = s - 1 by omega, hq.1, hq.2]
  have hcond : (2 ^ (s - 1) < 2 ^ s - d ||
      (2 ^ s - d == 2 ^ (s - 1) && (m - 1) % 2 == 1)) = true := by
    apply Bool.or_eq_true_iff.mpr
    left
    exact decide_eq_true (by omega)
  rw [if_pos hcond, show m - 1 + 1 = m by omega, hm]
  ring

/-- C4 counterexample -- the claim fails on the code: the source computes
`int(gas_estimate * 1.2)`, which truncates toward zero; for the estimate
1 the built gas limit is 1, while rounding up as the claim states gives
ceil(6/5) = 2. -/
theorem gas_limit_not_rounded_up : gasLimitPy 1 ≠ gasLimitSpecCeil 1 := by decide

/-- C4 amended -- for every gas estimate `g ≤ 2 ^ 49` (far beyond any
real gas estimate), the gas limit placed in the transaction equals
`g * 1.2` truncated DOWNWARD, i.e. `floor(6 * g / 5)`: the safety margin
is applied with truncation, not rounding up. -/
theorem gas_limit_is_floor_of_margin (g : Nat) (hg : g ≤ 2 ^ 49) :
    gasLimitPy g = 6 * g / 5 := by
  by_cases hg2 : g < 2
  · interval_cases g
    · decide
    · decide
  · have hg2' : 2 ≤ g := by omega
    set C := float12Mantissa with hC
    have hCval : C = 5404319552844595 := rfl
    set p := g * C with hp
    have hp_lo : 2 ^ 53 ≤ p := by
      calc (2 ^ 53 : Nat) = 2 * 2 ^ 52 := by norm_num
      _ ≤ 2 * C := by omega
      _ ≤ g * C := Nat.mul_le_mul_right _ hg2'
    have hp_hi : p < 2 ^ 102 := by
      calc p = g * C := rfl
      _ ≤ 2 ^ 49 * C := Nat.mul_le_mul_right _ hg
      _ < 2 ^ 49 * 2 ^ 53 := by omega
      _ = 2 ^ 102 := by norm_num
    have hp1 : 1 ≤ p := by omega
    obtain ⟨hbl, hbu⟩ := bitLen_spec p hp1
    set b := bitLen p with hbdef
    have hb54 : 54 ≤ b := by
      by_contra hb'
      have : b ≤ 53 := by omega
      have : (2 : Nat) ^ b ≤ 2 ^ 53 := Nat.pow_le_pow_right (by omega) this
      omega
    have hb102 : b ≤ 102 := by
      by_contra hb'
      have h103 : 103 ≤ b := by omega
      have : (2 : Nat) ^ 102 ≤ 2 ^ (b - 1) :=
        Nat.pow_le_pow_right (by omega) (by omega)
      omega
    set s := b - 53 with hsdef
    have hs1 : 1 ≤ s := by omega
    have hs49 : s ≤ 49 := by omega
    have hbs : b = s + 53 := by omega
    -- power bookkeeping, all with literal coefficients for omega
    have hEhalf : 2 ^ s = 2 * 2 ^ (s - 1) := by
      have hs' : s - 1 + 1 = s := by omega
      calc (2 : Nat) ^ s = 2 ^ (s - 1 + 1) := by rw [hs']
      _ = 2 ^ (s - 1) * 2 := pow_succ 2 (s - 1)
      _ = 2 * 2 ^ (s - 1) := by ring
    have hE52 : 2 ^ (b - 1) = 2 ^ (s - 1) * 2 ^ 53 := by
      rw [show b - 1 = (s - 1) + 53 by omega, pow_add]
    have hE53 : 2 ^ b = 2 ^ (s - 1) * 2 ^ 54 := by
      rw [show b = (s - 1) + 54 by omega, pow_add]
    have hp_gC_hi : p < g * 2 ^ 53 := by
      have : g * C < g * 2 ^ 53 :=
        mul_lt_mul_of_pos_left (show C < 2 ^ 53 by omega) (show 0 < g by omega)
      omega
    have hp_gC_lo : g * 2 ^ 52 < p := by
      have : g * 2 ^ 52 < g * C :=
        mul_lt_mul_of_pos_left (show 2 ^ 52 < C by omega) (show 0 < g by omega)
      omega
    have hhalf_lt_g : 2 ^ (s - 1) < g := by
      have h1 : 2 ^ (s - 1) * 2 ^ 53 ≤ p := by omega
      have h2 : p < g * 2 ^ 53 := hp_gC_hi
      have := Nat.lt_of_mul_lt_mul_right (a := 2 ^ 53)
        (by calc 2 ^ (s - 1) * 2 ^ 53 ≤ p := h1
            _ < g * 2 ^ 53 := h2)
      exact this
    have hg_lt_4half : g < 4 * 2 ^ (s - 1) := by
      have h1 : g * 2 ^ 52 < 2 ^ (s - 1) * 2 ^ 54 := by omega
      have h2 : 2 ^ (s - 1) * 2 ^ 54 = (4 * 2 ^ (s - 1)) * 2 ^ 52 := by ring
      rw [h2] at h1
      exact Nat.lt_of_mul_lt_mul_right h1
    have h5C : 5 * C = 6 * 2 ^ 52 - 1 := by rw [hCval]; norm_num
    have h5p : 5 * p + g = 6 * g * 2 ^ 52 := by
      have h1 : 5 * p = g * (5 * C) := by rw [hp]; ring
      have h2 : g * (6 * 2 ^ 52 - 1) + g = g * (6 * 2 ^ 52) := by
        have hx : (6 * 2 ^ 52 - 1 : Nat) + 1 = 6 * 2 ^ 52 := by norm_num
        calc g * (6 * 2 ^ 52 - 1) + g = g * ((6 * 2 ^ 52 - 1) + 1) := by ring
        _ = g * (6 * 2 ^ 52) := by rw [hx]
      calc 5 * p + g = g * (5 * C) + g := by omega
      _ = g * (6 * 2 ^ 52 - 1) + g := by rw [h5C]
      _ = g * (6 * 2 ^ 52) := h2
      _ = 6 * g * 2 ^ 52 := by ring
    by_cases h5 : g % 5 = 0
    · -- exact hit: the product rounds to exactly (6g/5) * 2^52
      obtain ⟨u, hu⟩ : ∃ u, g = 5 * u := ⟨g / 5, by omega⟩
      have hu1 : 1 ≤ u := by omega
      have hM : (6 * u) * 2 ^ 52 = p + u := by
        have : 5 * ((6 * u) * 2 ^ 52) = 5 * (p + u) := by
          have : 5 * ((6 * u) * 2 ^ 52) = 6 * (5 * u) * 2 ^ 52 := by ring
          omega
        omega
      have hdvd : 2 ^ s ∣ (6 * u) * 2 ^ 52 := by
        refine ⟨6 * u * 2 ^ (52 - s), ?_⟩
        have : (2 : Nat) ^ 52 = 2 ^ s * 2 ^ (52 - s) := by
          rw [← pow_add]
          congr 1
          omega
        rw [this]
        ring
      have hround : roundSig53 p = (6 * u) * 2 ^ 52 :=
        roundSig53_exact p ((6 * u) * 2 ^ 52) u s (by omega) hs1 (by omega)
          (by omega) (by omega) hdvd
      have : gasLimitPy g = (6 * u) * 2 ^ 52 / 2 ^ 52 := by
        unfold gasLimitPy
        rw [← hC, ← hp, hround]
      rw [this, Nat.mul_div_cancel _ (by positivity)]
      omega
    · -- no exact hit: the rounded product stays inside the unit interval
      obtain ⟨herr1, herr2⟩ := roundSig53_err p s (by omega) hs1
      have hk1 : 1 ≤ g % 5 := by omega
      have hk6 : 6 * g % 5 = g % 5 := by omega
      have hN : 6 * g = 5 * (6 * g / 5) + 6 * g % 5 := by omega
      have hlow : (6 * g / 5) * 2 ^ 52 ≤ roundSig53 p := by omega
      have hhigh : roundSig53 p < (6 * g / 5) * 2 ^ 52 + 2 ^ 52 := by omega
      have hgoal : roundSig53 p / 2 ^ 52 = 6 * g / 5 := by omega
      unfold gasLimitPy
      rw [← hC, ← hp]
      exact hgoal

theorem gas_limit_is_floor_of_margin_witness : gasLimitPy 7 = 6 * 7 / 5 :=
  gas_limit_is_floor_of_margin 7 (by norm_num)

theorem history_self_transfer_duplicated_inbound_witness :
    historyTransactions 5 (fun _ => 0) [⟨9, 3, 5, 5, 100⟩] [⟨9, 3, 5, 5, 100⟩] 10 =
      [decodeHistLog 5 (fun _ => 0) ⟨9, 3, 5, 5, 100⟩,
       decodeHistLog 5 (fun _ => 0) ⟨9, 3, 5, 5, 100⟩] ∧
    (decodeHistLog 5 (fun _ => 0) ⟨9, 3, 5, 5, 100⟩).hash = 9 ∧
    (decodeHistLog 5 (fun _ => 0) ⟨9, 3, 5, 5, 100⟩).direction = TxDirection.inbound :=
  history_self_transfer_duplicated_inbound 5 10 (fun _ => 0) ⟨9, 3, 5, 5, 100⟩
    (by decide) (by decide)

/-- C9 -- `compute_create2` is a pure function that returns the 20
low-order bytes of the keccak hash of
`0xFF || factory(20) || salt(32) || initCodeHash(32)` (checksummed for
display); identical inputs always give identical output, and the two
distinct salts exercised by the e2e test (on the test factory and the
test init-code hash) give different addresses. -/
theorem create2_pure_and_salt_sensitive :
    (∀ (f a : Nat) (h : List Nat), compute_create2 f a h =
        to_checksum_address (String.mk (byteHexChars (deriveAddressSpecBytes f a h)))) ∧
    (∀ (f a : Nat) (h : List Nat), compute_create2 f a h = compute_create2 f a h) ∧
    compute_create2 0x1000000000000000000000000000000000000001 1
        (solidityKeccakText "AgentWallet_bytecode") ≠
      compute_create2 0x1000000000000000000000000000000000000001 2
        (solidityKeccakText "AgentWallet_bytecode") :=
  ⟨fun _ _ _ => rfl, fun _ _ _ => rfl, by decide⟩

/-! ### Checksum-address lemmas, toward the contact-store invariant -/

theorem hexVal_lt_16 (c : Char) : hexVal c < 16 := by
  unfold hexVal
  split
  · rename_i hc
    simp only [Bool.and_eq_true, decide_eq_true_eq] at hc
    omega
  · split
    · rename_i hc
      simp only [Bool.and_eq_true, decide_eq_true_eq] at hc
      omega
    · split
      · rename_i hc
        simp only [Bool.and_eq_true, decide_eq_true_eq] at hc
        omega
      · omega

theorem hexVal_outChar (v n : Nat) (hv : v < 16) : hexVal (outChar v n) = v := by
  unfold outChar
  by_cases hb : (decide (10 ≤ v) && decide (8 ≤ n)) = true
  · rw [if_pos hb]
    have h10 : 10 ≤ v := of_decide_eq_true (Bool.and_eq_true_iff.mp hb).1
    interval_cases v <;> decide
  · rw [if_neg hb]
    interval_cases v <;> decide

theorem isHexDigitCh_outChar (v n : Nat) (hv : v < 16) :
    isHexDigitCh (outChar v n) = true := by
  unfold outChar
  by_cases hb : (decide (10 ≤ v) && decide (8 ≤ n)) = true
  · rw [if_pos hb]
    have h10 : 10 ≤ v := of_decide_eq_true (Bool.and_eq_true_iff.mp hb).1
    interval_cases v <;> decide
  · rw [if_neg hb]
    interval_cases v <;> decide

theorem zipOut_map_hexVal (vs : List Nat) : ∀ ns : List Nat, (∀ v ∈ vs, v < 16) →
    vs.length ≤ ns.length → (zipOut vs ns).map hexVal = vs := by
  induction vs with
  | nil =>
    intro ns _ _
    cases ns <;> rfl
  | cons v vs ih =>
    intro ns hv hl
    cases ns with
    | nil => simp at hl
    | cons n ns =>
      show hexVal (outChar v n) :: (zipOut vs ns).map hexVal = v :: vs
      rw [hexVal_outChar v n (hv v (by simp)),
        ih ns (fun x hx => hv x (by simp [hx])) (by simpa using hl)]

theorem zipOut_length (vs : List Nat) : ∀ ns : List Nat, vs.length ≤ ns.length →
    (zipOut vs ns).length = vs.length := by
  induction vs with
  | nil =>
    intro ns _
    cases ns <;> rfl
  | cons v vs ih =>
    intro ns hl
    cases ns with
    | nil => simp at hl
    | cons n ns =>
      show (outChar v n :: zipOut vs ns).length = vs.length + 1
      rw [List.length_cons, ih ns (by simpa using hl)]

theorem zipOut_all_hex (vs : List Nat) : ∀ ns : List Nat, (∀ v ∈ vs, v < 16) →
    (zipOut vs ns).all isHexDigitCh = true := by
  induction vs with
  | nil =>
    intro ns _
    cases ns <;> rfl
  | cons v vs ih =>
    intro ns hv
    cases ns with
    | nil => rfl
    | cons n ns =>
      show (outChar v n :: zipOut vs ns).all isHexDigitCh = true
      rw [List.all_cons, isHexDigitCh_outChar v n (hv v (by simp)),
        ih ns (fun x hx => hv x (by simp [hx]))]
      rfl

theorem keccak256_length (msg : List Nat) : (keccak256 msg).length = 32 := by
  simp [keccak256, squeeze256]

theorem nibblesOfBytes_length (bs : List Nat) :
    (nibblesOfBytes bs).length = 2 * bs.length := by
  induction bs with
  | nil => rfl
  | cons b bs ih =>
    show (b / 16 :: b % 16 :: nibblesOfBytes bs).length = 2 * (bs.length + 1)
    simp only [List.length_cons, ih]
    omega

theorem checksumChars_map_hexVal (t : List Char) (hlen : t.length = 40) :
    (checksumChars t).map hexVal = t.map hexVal := by
  unfold checksumChars
  apply zipOut_map_hexVal
  · intro v hv
    obtain ⟨c, _, rfl⟩ := List.mem_map.mp hv
    exact hexVal_lt_16 c
  · rw [List.length_map, hlen, nibblesOfBytes_length, keccak256_length]
    norm_num

theorem checksumChars_length (t : List Char) (hlen : t.length = 40) :
    (checksumChars t).length = 40 := by
  unfold checksumChars
  have h1 : (t.map hexVal).length ≤
      (nibblesOfBytes (keccak256 ((t.map hexVal).map lowerAscii))).length := by
    rw [List.length_map, hlen, nibblesOfBytes_length, keccak256_length]
    norm_num
  rw [zipOut_length _ _ h1, List.length_map, hlen]

theorem checksumChars_all_hex (t : List Char) :
    (checksumChars t).all isHexDigitCh = true := by
  unfold checksumChars
  apply zipOut_all_hex
  intro v hv
  obtain ⟨c, _, rfl⟩ := List.mem_map.mp hv
  exact hexVal_lt_16 c

theorem checksumChars_idem (t : List Char) (hlen : t.length = 40) :
    checksumChars (checksumChars t) = checksumChars t := by
  have h := checksumChars_map_hexVal t hlen
  show zipOut ((checksumChars t).map hexVal)
      (nibblesOfBytes (keccak256 (((checksumChars t).map hexVal).map lowerAscii))) =
    checksumChars t
  rw [h]
  rfl

theorem to_checksum_idem (s : String) (h40 : (strip2 s.toList).length = 40) :
    to_checksum_address (to_checksum_address s) = to_checksum_address s := by
  unfold to_checksum_address
  have ht : strip2 (String.mk
        ('0' :: 'x' :: checksumChars (strip2 s.toList))).toList =
      checksumChars (strip2 s.toList) := rfl
  rw [ht, checksumChars_idem _ h40]

theorem is_address_len (s : String) (h : is_address s = true) :
    (strip2 s.toList).length = 40 := by
  unfold is_address at h
  simp only [Bool.and_eq_true, beq_iff_eq] at h
  exact h.1.1

theorem is_address_to_checksum (s : String) (h : is_address s = true) :
    is_address (to_checksum_address s) = true := by
  have hlen := is_address_len s h
  have hT : strip2 (to_checksum_address s).toList =
      checksumChars (strip2 s.toList) := rfl
  unfold is_address
  rw [hT]
  simp only [Bool.and_eq_true, Bool.or_eq_true, beq_iff_eq]
  refine ⟨⟨checksumChars_length _ hlen, checksumChars_all_hex _⟩, Or.inr ?_⟩
  exact to_checksum_idem s hlen

theorem isChecksummedAddr_to_checksum (s : String) (h : is_address s = true) :
    isChecksummedAddr (to_checksum_address s) = true := by
  unfold isChecksummedAddr
  rw [is_address_to_checksum s h, to_checksum_idem s (is_address_len s h)]
  simp

theorem setKey_forall {α : Type} (P : String × α → Prop) (k : String) (v : α)
    (book : List (String × α)) (hb : ∀ p ∈ book, P p) (hv : ∀ k2, P (k2, v)) :
    ∀ p ∈ setKey k v book, P p := by
  induction book with
  | nil =>
    intro p hp
    have : p = (k, v) := by simpa [setKey] using hp
    rw [this]
    exact hv k
  | cons q book ih =>
    obtain ⟨k2, v2⟩ := q
    intro p hp
    by_cases hk : (k2 == k) = true
    · rw [show setKey k v ((k2, v2) :: book) = (k2, v) :: book by
        simp [setKey, hk]] at hp
      rcases List.mem_cons.mp hp with h | h
      · rw [h]; exact hv k2
      · exact hb p (List.mem_cons_of_mem _ h)
    · rw [show setKey k v ((k2, v2) :: book) = (k2, v2) :: setKey k v book by
        simp [setKey, hk]] at hp
      rcases List.mem_cons.mp hp with h | h
      · rw [h]; exact hb (k2, v2) (by simp)
      · exact ih (fun p hp => hb p (List.mem_cons_of_mem _ hp)) p h

theorem lookup_mem {α : Type} (book : List (String × α)) (k : String) (v : α)
    (h : book.lookup k = some v) : ∃ k2, (k2, v) ∈ book := by
  induction book with
  | nil => simp [List.lookup] at h
  | cons q book ih =>
    obtain ⟨k2, v2⟩ := q
    by_cases hk : (k == k2) = true
    · rw [show ((k2, v2) :: book).lookup k = some v2 by simp [List.lookup, hk]] at h
      exact ⟨k2, by simp [Option.some_inj.mp h]⟩
    · rw [show ((k2, v2) :: book).lookup k = book.lookup k by
        simp [List.lookup, hk]] at h
      obtain ⟨k3, hk3⟩ := ih h
      exact ⟨k3, List.mem_cons_of_mem _ hk3⟩

/-- C10 -- the contact stores keep only valid checksummed addresses:
`add` with an invalid address raises and leaves the store untouched (for
both phonebook.py and contacts-manager.py); a successful `add` writes
exactly the checksummed canonical form, which is itself a valid
checksummed address; the all-checksummed invariant is preserved by
`add`; and under the invariant, `get` of a stored contact returns a
checksummed address. -/
theorem contact_store_checksum_invariant (book : List (String × PBEntry))
    (book2 : List (String × String)) (name a chain addedVia now : String) :
    (is_address a = false →
      PhoneBook.add book name a chain addedVia now =
        (book, Except.error ("Invalid address: " ++ a)) ∧
      ContactsManager.add book2 name a =
        (book2, Except.error ("Invalid Ethereum address: " ++ a))) ∧
    (is_address a = true →
      (PhoneBook.add book name a chain addedVia now).1 =
        setKey name ⟨to_checksum_address a, chain, now, addedVia⟩ book ∧
      (ContactsManager.add book2 name a).1 =
        setKey name (to_checksum_address a) book2 ∧
      isChecksummedAddr (to_checksum_address a) = true) ∧
    ((∀ p ∈ book, isChecksummedAddr p.2.address = true) →
      ∀ p ∈ (PhoneBook.add book name a chain addedVia now).1,
        isChecksummedAddr p.2.address = true) ∧
    ((∀ p ∈ book, isChecksummedAddr p.2.address = true) →
      ∀ e, book.lookup name = some e →
        PhoneBook.get book name = Except.ok e.address ∧
        isChecksummedAddr e.address = true) := by
  refine ⟨?_, ?_, ?_, ?_⟩
  · intro hf
    constructor
    · unfold PhoneBook.add
      rw [if_neg (by simp [hf])]
    · unfold ContactsManager.add
      rw [if_neg (by simp [hf])]
  · intro ht
    refine ⟨?_, ?_, isChecksummedAddr_to_checksum a ht⟩
    · unfold PhoneBook.add
      rw [if_pos ht]
    · unfold ContactsManager.add
      rw [if_pos ht]
  · intro hinv
    by_cases ha : is_address a = true
    · have : (PhoneBook.add book name a chain addedVia now).1 =
          setKey name ⟨to_checksum_address a, chain, now, addedVia⟩ book := by
        unfold PhoneBook.add
        rw [if_pos ha]
      rw [this]
      exact setKey_forall _ name _ book hinv
        (fun _ => isChecksummedAddr_to_checksum a ha)
    · have : (PhoneBook.add book name a chain addedVia now).1 = book := by
        unfold PhoneBook.add
        rw [if_neg ha]
      rw [this]
      exact hinv
  · intro hinv e hlook
    constructor
    · unfold PhoneBook.get
      rw [hlook]
    · obtain ⟨k2, hk2⟩ := lookup_mem book name e hlook
      exact hinv (k2, e) hk2

theorem contact_store_checksum_invariant_witness :
    (PhoneBook.add [] "Alice" "0x1000000000000000000000000000000000000001"
        "base" "manual" "t0").1 =
      setKey "Alice" ⟨to_checksum_address "0x1000000000000000000000000000000000000001",
        "base", "t0", "manual"⟩ [] ∧
    (ContactsManager.add [] "Alice" "0x1000000000000000000000000000000000000001").1 =
      setKey "Alice"
        (to_checksum_address "0x1000000000000000000000000000000000000001") [] ∧
    isChecksummedAddr
      (to_checksum_address "0x1000000000000000000000000000000000000001") = true :=
  (contact_store_checksum_invariant [] [] "Alice"
    "0x1000000000000000000000000000000000000001" "base" "manual" "t0").2.1 (by decide)
